import Mathlib

/-!
Verification of the metrics subsystem of the LitecoinZ node
(`src/metrics.cpp`): the interval timer (`AtomicTimer`), the bounded
message queue, the network-height estimator, and the mined-block
reconciler run by `printMetrics`.

Machine integers (`int`, `int64_t`) are modelled as `Int`; C++ integer
division truncates toward zero, so it is modelled with `Int.tdiv`.
C++ `double` arithmetic on exactly-representable values is modelled
with `ℚ`; the `double → int` conversion truncates toward zero
(`ratTrunc`).
-/

namespace Metrics

/-! ## AtomicTimer (src/metrics.cpp lines 33-76)

The timer's fields are declared in `metrics.h` (not part of the provided
source): `threads`, `start_time`, `total_time`.  Each member function
takes the current wall-clock time `now` (the C++ code reads it with
`GetTime()`).
-/

structure AtomicTimer where
  threads : Nat
  start_time : Int
  total_time : Int
deriving DecidableEq, Repr

/-- `AtomicTimer::start` (lines 33-40): if `threads < 1` set
`start_time` to the current time, then increment `threads`. -/
def AtomicTimer.start (t : AtomicTimer) (now : Int) : AtomicTimer :=
  { threads := t.threads + 1
    start_time := if t.threads < 1 then now else t.start_time
    total_time := t.total_time }

/-- `AtomicTimer::stop` (lines 42-53): excess calls are ignored; when the
last active thread stops, `GetTime() - start_time` is added to
`total_time`.  The `start_time` field itself is left as-is. -/
def AtomicTimer.stop (t : AtomicTimer) (now : Int) : AtomicTimer :=
  if 0 < t.threads then
    let threads' := t.threads - 1
    if threads' < 1 then
      { threads := threads'
        start_time := t.start_time
        total_time := t.total_time + (now - t.start_time) }
    else
      { threads := threads'
        start_time := t.start_time
        total_time := t.total_time }
  else t

/-- `AtomicTimer::running` (lines 55-59): `threads > 0`. -/
def AtomicTimer.running (t : AtomicTimer) : Bool :=
  0 < t.threads

/-- `AtomicTimer::threadCount` (lines 61-65). -/
def AtomicTimer.threadCount (t : AtomicTimer) : Nat :=
  t.threads

/-- `AtomicTimer::rate` (lines 67-76): `duration = total_time`, plus the
open interval `now - start_time` when the timer is running; returns
`count / duration` when `duration > 0`, else `0`.  The C++ `double`
result is modelled as `ℚ`. -/
def AtomicTimer.rate (t : AtomicTimer) (now : Int) (count : Nat) : ℚ :=
  let duration : Int := t.total_time + (if 0 < t.threads then now - t.start_time else 0)
  if 0 < duration then (count : ℚ) / (duration : ℚ) else 0

/-- The spec-level view of the timer's open-interval start
(spec §3, `IntervalTimer.currentIntervalStart : timestamp | none`):
the interval start is observable exactly while some caller is active,
since `start_time` is overwritten before any later read. -/
def specCurrentIntervalStart (t : AtomicTimer) : Option Int :=
  if 0 < t.threads then some t.start_time else none

/-! ## Message box (src/metrics.cpp lines 155-186)

`metrics_ThreadSafeMessageBox` appends the formatted message with
`push_back` and, when the queue then holds more than 5 entries, calls
`pop_back()` — which removes the element just pushed. -/

/-- The queue update performed by `metrics_ThreadSafeMessageBox`
(lines 178-182): `push_back` the new message, then `pop_back` if the
size exceeds 5. -/
def pushMessage (u : List String) (msg : String) : List String :=
  let u' := u ++ [msg]
  if 5 < u'.length then u'.dropLast else u'

/-! ## Network height estimator (src/metrics.cpp lines 118-135) -/

/-- Truncation of a rational toward zero: the effect of the C++
`double → int` conversion on an exactly-represented value. -/
def ratTrunc (q : ℚ) : Int :=
  q.num.tdiv q.den

/-- Line 125-127: `medianHeight`.  `CBlockIndex::nMedianTimeSpan` is
declared outside the provided source, so the window is a parameter
`nMedianTimeSpan` here. -/
def medianHeightOf (nMedianTimeSpan height : Int) : Int :=
  if nMedianTimeSpan < height then height - (1 + (nMedianTimeSpan - 1).tdiv 2)
  else height.tdiv 2

/-- Lines 128-130: observed spacing since the checkpoint when the median
height is past it, otherwise the genesis-to-checkpoint average. -/
def checkpointSpacingOf (medianHeight heightLastCheckpoint tipmediantime
    timeLastCheckpoint genesisTime : Int) : ℚ :=
  if heightLastCheckpoint < medianHeight then
    ((tipmediantime - timeLastCheckpoint : Int) : ℚ) /
      ((medianHeight - heightLastCheckpoint : Int) : ℚ)
  else
    ((timeLastCheckpoint - genesisTime : Int) : ℚ) / ((heightLastCheckpoint : Int) : ℚ)

/-- Line 131: average of the target spacing and the checkpoint spacing. -/
def averageSpacingOf (targetSpacing : Int) (checkpointSpacing : ℚ) : ℚ :=
  (((targetSpacing : Int) : ℚ) + checkpointSpacing) / 2

/-- `EstimateNetHeightInner` (lines 118-135).  `now` stands for the
`GetTime()` call on line 132. -/
def EstimateNetHeightInner (nMedianTimeSpan height tipmediantime heightLastCheckpoint
    timeLastCheckpoint genesisTime targetSpacing now : Int) : Int :=
  let medianHeight := medianHeightOf nMedianTimeSpan height
  let checkpointSpacing := checkpointSpacingOf medianHeight heightLastCheckpoint
      tipmediantime timeLastCheckpoint genesisTime
  let averageSpacing := averageSpacingOf targetSpacing checkpointSpacing
  let netheight := ratTrunc ((medianHeight : ℚ) +
      ((now - tipmediantime : Int) : ℚ) / averageSpacing)
  ((netheight + 5).tdiv 10) * 10

/-- Division-checked variant of `EstimateNetHeightInner`: returns `none`
whenever one of the two data-dependent divisors (the checkpoint-spacing
denominator, or `averageSpacing`) is zero, and otherwise the value the
unchecked function computes. -/
def EstimateNetHeightInnerChecked (nMedianTimeSpan height tipmediantime heightLastCheckpoint
    timeLastCheckpoint genesisTime targetSpacing now : Int) : Option Int :=
  let medianHeight := medianHeightOf nMedianTimeSpan height
  let divisor1 : Int :=
    if heightLastCheckpoint < medianHeight then medianHeight - heightLastCheckpoint
    else heightLastCheckpoint
  if divisor1 = 0 then none
  else
    let checkpointSpacing := checkpointSpacingOf medianHeight heightLastCheckpoint
        tipmediantime timeLastCheckpoint genesisTime
    let averageSpacing := averageSpacingOf targetSpacing checkpointSpacing
    if averageSpacing = 0 then none
    else some (((ratTrunc ((medianHeight : ℚ) +
        ((now - tipmediantime : Int) : ℚ) / averageSpacing) + 5).tdiv 10) * 10)

/-! ## Tracked-block reconciler (src/metrics.cpp lines 334-360)

The loop in `printMetrics` walks `trackedBlocks`; an entry is kept when
`mapBlockIndex.count(hash) > 0 && chainActive.Contains(mapBlockIndex[hash])`,
in which case its block subsidy is accumulated into `immature` when
`std::max(0, COINBASE_MATURITY - (tipHeight - height)) > 0` and into
`mature` otherwise; any other entry is erased from the list.

The environment is abstracted exactly at the seams the code reads it:
`index` is `mapBlockIndex` (hash to block height, `none` when the hash
is not indexed), `contains` is `chainActive.Contains` on the indexed
entry, `subsidy` is `GetBlockSubsidy` at a height, and `maturity` is
the constant `COINBASE_MATURITY` (declared outside the provided
source, hence a parameter). -/

/-- One reconciliation pass (lines 341-357).  Returns the surviving
list together with the accumulated `immature` and `mature` amounts. -/
def reconcileTracked {α : Type} (index : α → Option Int) (contains : α → Bool)
    (subsidy : Int → Int) (maturity tipHeight : Int) :
    List α → List α × Int × Int
  | [] => ([], 0, 0)
  | hash :: rest =>
    match index hash with
    | some height =>
      if contains hash then
        let r := reconcileTracked index contains subsidy maturity tipHeight rest
        let sub := subsidy height
        if 0 < max 0 (maturity - (tipHeight - height)) then
          (hash :: r.1, sub + r.2.1, r.2.2)
        else
          (hash :: r.1, r.2.1, sub + r.2.2)
      else reconcileTracked index contains subsidy maturity tipHeight rest
    | none => reconcileTracked index contains subsidy maturity tipHeight rest

/-- Line 360: `orphaned = mined - u->size()`. -/
def printMetricsOrphaned {α : Type} (mined : Int) (u : List α) : Int :=
  mined - u.length

/-- Spec-side predicate: an entity the reconciler keeps (indexed and on
the best chain). -/
def specKept {α : Type} (index : α → Option Int) (contains : α → Bool) (h : α) : Bool :=
  (index h).isSome && contains h

/-- Spec-side view of a kept entity's height (total: returns `0` on an
unindexed hash, which the kept predicate rules out). -/
def specHeight {α : Type} (index : α → Option Int) (h : α) : Int :=
  (index h).getD 0

/-! ## Mined-block tracking as a transition system
(src/metrics.cpp lines 96-101 and 334-360) -/

structure MinerState (α : Type) where
  minedBlocks : Int
  trackedBlocks : List α
deriving Repr

/-- `TrackMinedBlock` (lines 96-101): under `cs_metrics`, increment the
`minedBlocks` counter and append the hash to `trackedBlocks`. -/
def TrackMinedBlock {α : Type} (s : MinerState α) (hash : α) : MinerState α :=
  { minedBlocks := s.minedBlocks + 1
    trackedBlocks := s.trackedBlocks ++ [hash] }

/-- The two operations that touch the tracked-block state: mining a
block, and a render pass running the reconciler against a chain-index
snapshot. -/
inductive MinerEvent (α : Type) where
  | track (hash : α)
  | render (index : α → Option Int) (contains : α → Bool)
      (subsidy : Int → Int) (maturity tipHeight : Int)

def minerStep {α : Type} (s : MinerState α) : MinerEvent α → MinerState α
  | .track h => TrackMinedBlock s h
  | .render index contains subsidy maturity tipHeight =>
    { s with trackedBlocks :=
        (reconcileTracked index contains subsidy maturity tipHeight s.trackedBlocks).1 }

/-- Modelled from the spec: the counter and the tracked list start at
zero/empty when the process starts (the globals' declarations live in
`metrics.h`, which is not part of the provided source; spec §3 has
counters "created once at process start" and tracked entities
"appended when the owning process completes some unit of work"). -/
def initMinerState (α : Type) : MinerState α :=
  { minedBlocks := 0, trackedBlocks := [] }

def minerRun {α : Type} (evs : List (MinerEvent α)) : MinerState α :=
  evs.foldl minerStep (initMinerState α)

/-- `true` exactly on `TrackMinedBlock` events. -/
def isTrackEvent {α : Type} : MinerEvent α → Bool
  | .track _ => true
  | .render _ _ _ _ _ => false

/-! ## Timer call sequences (for the start/stop interleaving claims) -/

/-- A call to `AtomicTimer::start` or `AtomicTimer::stop`, tagged with
the `GetTime()` value observed during the call. -/
inductive TimerEvent where
  | start (now : Int)
  | stop (now : Int)
deriving DecidableEq, Repr

def TimerEvent.time : TimerEvent → Int
  | .start n => n
  | .stop n => n

def timerStep (t : AtomicTimer) : TimerEvent → AtomicTimer
  | .start n => t.start n
  | .stop n => t.stop n

/-- Modelled from the spec: the timer begins with no active callers and
zero accumulated duration (spec §3, `IntervalTimer`; the constructor is
in `metrics.h`, not part of the provided source). -/
def initTimer : AtomicTimer :=
  { threads := 0, start_time := 0, total_time := 0 }

def timerRun (evs : List TimerEvent) : AtomicTimer :=
  evs.foldl timerStep initTimer

/-- Spec-side count of starts not yet matched by a stop: a stop matches
a start only when one is outstanding (clamped subtraction). -/
def specActive (evs : List TimerEvent) : Nat :=
  evs.foldl (fun a e => match e with | .start _ => a + 1 | .stop _ => a - 1) 0

/-- The `GetTime()` values observed by a call sequence never decrease,
starting from `lo`. -/
def timesMonotone : Int → List TimerEvent → Bool
  | _, [] => true
  | lo, e :: rest => decide (lo ≤ e.time) && timesMonotone e.time rest

/-- The time of the last event, `lo` for the empty sequence. -/
def lastTimeFrom : Int → List TimerEvent → Int
  | lo, [] => lo
  | _, e :: rest => lastTimeFrom e.time rest

/-! ## Helper lemmas -/

/-- The surviving list of a reconciliation pass is exactly the tracked
entries that are indexed and on the best chain, in order. -/
theorem reconcileTracked_fst {α : Type} (index : α → Option Int) (contains : α → Bool)
    (subsidy : Int → Int) (maturity tipHeight : Int) (l : List α) :
    (reconcileTracked index contains subsidy maturity tipHeight l).1
      = l.filter (specKept index contains) := by
  induction l with
  | nil => rfl
  | cons h t ih =>
    cases hi : index h with
    | none => simp [reconcileTracked, hi, specKept, ih]
    | some ht =>
      by_cases hc : contains h
      · simp only [reconcileTracked, hi, hc, if_pos]
        split <;> simp [specKept, hi, hc, ih]
      · simp [reconcileTracked, hi, hc, specKept, ih]

/-- The `immature` accumulator collects the subsidies of the kept
entries whose depth is below the maturity threshold. -/
theorem reconcileTracked_immature {α : Type} (index : α → Option Int) (contains : α → Bool)
    (subsidy : Int → Int) (maturity tipHeight : Int) (l : List α) :
    (reconcileTracked index contains subsidy maturity tipHeight l).2.1
      = ((l.filter (fun h => specKept index contains h
            && decide (tipHeight - specHeight index h < maturity))).map
          (fun h => subsidy (specHeight index h))).sum := by
  induction l with
  | nil => rfl
  | cons h t ih =>
    cases hi : index h with
    | none => simp [reconcileTracked, hi, specKept, ih]
    | some ht =>
      by_cases hc : contains h
      · have hh : specHeight index h = ht := by simp [specHeight, hi]
        by_cases hm : tipHeight - ht < maturity
        · have hcond : 0 < max 0 (maturity - (tipHeight - ht)) := by
            rw [lt_max_iff]; omega
          simp [reconcileTracked, hi, hc, if_pos hcond, specKept, hh, hm, ih]
        · have hcond : ¬ 0 < max 0 (maturity - (tipHeight - ht)) := by
            rw [lt_max_iff]; omega
          simp [reconcileTracked, hi, hc, if_neg hcond, specKept, hh, hm, ih]
      · simp [reconcileTracked, hi, hc, specKept, ih]

/-- The `mature` accumulator collects the subsidies of the kept entries
whose depth is at or past the maturity threshold. -/
theorem reconcileTracked_mature {α : Type} (index : α → Option Int) (contains : α → Bool)
    (subsidy : Int → Int) (maturity tipHeight : Int) (l : List α) :
    (reconcileTracked index contains subsidy maturity tipHeight l).2.2
      = ((l.filter (fun h => specKept index contains h
            && decide (maturity ≤ tipHeight - specHeight index h))).map
          (fun h => subsidy (specHeight index h))).sum := by
  induction l with
  | nil => rfl
  | cons h t ih =>
    cases hi : index h with
    | none => simp [reconcileTracked, hi, specKept, ih]
    | some ht =>
      by_cases hc : contains h
      · have hh : specHeight index h = ht := by simp [specHeight, hi]
        by_cases hm : maturity ≤ tipHeight - ht
        · have hcond : ¬ 0 < max 0 (maturity - (tipHeight - ht)) := by
            rw [lt_max_iff]; omega
          simp [reconcileTracked, hi, hc, if_neg hcond, specKept, hh, hm, ih]
        · have hcond : 0 < max 0 (maturity - (tipHeight - ht)) := by
            rw [lt_max_iff]; omega
          simp [reconcileTracked, hi, hc, if_pos hcond, specKept, hh, hm, ih]
      · simp [reconcileTracked, hi, hc, specKept, ih]

/-- The `minedBlocks` counter after a run equals the number of
`TrackMinedBlock` events: render passes never touch it. -/
theorem minerRun_mined {α : Type} (evs : List (MinerEvent α)) : ∀ (s : MinerState α),
    (evs.foldl minerStep s).minedBlocks
      = s.minedBlocks + ((evs.filter isTrackEvent).length : Int) := by
  induction evs with
  | nil => intro s; simp
  | cons e rest ih =>
    intro s
    cases e with
    | track h =>
      simp [List.foldl_cons, ih, minerStep, TrackMinedBlock, isTrackEvent, List.filter]
      ring
    | render index contains subsidy maturity tipHeight =>
      simp [List.foldl_cons, ih, minerStep, isTrackEvent, List.filter]

/-- Every step of the miner system preserves `tracked.length ≤ mined`. -/
theorem minerRun_inv {α : Type} (evs : List (MinerEvent α)) : ∀ (s : MinerState α),
    (s.trackedBlocks.length : Int) ≤ s.minedBlocks →
    (((evs.foldl minerStep s).trackedBlocks.length : Int)
      ≤ (evs.foldl minerStep s).minedBlocks) := by
  induction evs with
  | nil => intro s h; simpa using h
  | cons e rest ih =>
    intro s h
    refine ih _ ?_
    cases e with
    | track x =>
      simp only [minerStep, TrackMinedBlock]
      rw [List.length_append]
      push_cast
      simp at *
      omega
    | render index contains subsidy maturity tipHeight =>
      simp only [minerStep]
      have hlen : ((reconcileTracked index contains subsidy maturity tipHeight
          s.trackedBlocks).1).length ≤ s.trackedBlocks.length := by
        rw [reconcileTracked_fst]
        exact List.length_filter_le _ _
      have hcast : (((reconcileTracked index contains subsidy maturity tipHeight
          s.trackedBlocks).1).length : Int) ≤ (s.trackedBlocks.length : Int) := by
        exact_mod_cast hlen
      omega

/-- A `start` increments the thread count and a `stop` decrements it
with clamping at zero (excess stops are ignored). -/
theorem timerStep_threads (t : AtomicTimer) (e : TimerEvent) :
    (timerStep t e).threads
      = (match e with | .start _ => t.threads + 1 | .stop _ => t.threads - 1) := by
  cases e with
  | start n => rfl
  | stop n =>
    simp only [timerStep, AtomicTimer.stop]
    by_cases h : 0 < t.threads
    · rw [if_pos h]
      split <;> simp
    · rw [if_neg h]
      omega

/-- The thread count of a run is the clamped start/stop balance. -/
theorem timerRun_threads (evs : List TimerEvent) : ∀ (t : AtomicTimer),
    (evs.foldl timerStep t).threads
      = evs.foldl (fun a e => match e with | .start _ => a + 1 | .stop _ => a - 1)
          t.threads := by
  induction evs with
  | nil => intro t; rfl
  | cons e rest ih =>
    intro t
    simp only [List.foldl_cons, ih, timerStep_threads]

/-- A step keeps `start_time` at or below the step's own timestamp
whenever the timer is left running. -/
theorem timerStep_start_le (t : AtomicTimer) (e : TimerEvent)
    (h : 0 < t.threads → t.start_time ≤ e.time) :
    0 < (timerStep t e).threads → (timerStep t e).start_time ≤ e.time := by
  cases e with
  | start n =>
    intro _
    simp only [timerStep, AtomicTimer.start, TimerEvent.time]
    split
    · exact le_refl n
    · rename_i hge
      exact h (by omega)
  | stop n =>
    intro hpos
    simp only [timerStep, AtomicTimer.stop] at hpos ⊢
    by_cases h0 : 0 < t.threads
    · rw [if_pos h0] at hpos ⊢
      split <;> exact h h0
    · rw [if_neg h0] at hpos ⊢
      exact h hpos

/-- Along a run with non-decreasing timestamps, a running timer's
`start_time` never exceeds the time of the last processed event. -/
theorem timerRun_start_le (evs : List TimerEvent) : ∀ (lo : Int) (t : AtomicTimer),
    timesMonotone lo evs = true → (0 < t.threads → t.start_time ≤ lo) →
    (0 < (evs.foldl timerStep t).threads →
      (evs.foldl timerStep t).start_time ≤ lastTimeFrom lo evs) := by
  induction evs with
  | nil => intro lo t _ h hpos; exact h hpos
  | cons e rest ih =>
    intro lo t hmono h
    simp only [timesMonotone, Bool.and_eq_true, decide_eq_true_eq] at hmono
    obtain ⟨h1, h2⟩ := hmono
    simp only [List.foldl_cons, lastTimeFrom]
    exact ih e.time (timerStep t e) h2
      (timerStep_start_le t e (fun hp => le_trans (h hp) h1))

/-- One step never decreases `total_time` (given the step's timestamp
is not in the timer's past), and changes it only on the last-caller
stop. -/
theorem timerStep_total (t : AtomicTimer) (e : TimerEvent)
    (h : 0 < t.threads → t.start_time ≤ e.time) :
    t.total_time ≤ (timerStep t e).total_time
    ∧ ((timerStep t e).total_time ≠ t.total_time →
        t.threads = 1 ∧ ∃ n, e = TimerEvent.stop n) := by
  cases e with
  | start n =>
    constructor
    · simp [timerStep, AtomicTimer.start]
    · intro hne
      exact absurd rfl hne
  | stop n =>
    by_cases h0 : 0 < t.threads
    · by_cases h1 : t.threads = 1
      · have hst : t.start_time ≤ n := h h0
        have heq : (timerStep t (TimerEvent.stop n)).total_time
            = t.total_time + (n - t.start_time) := by
          simp only [timerStep, AtomicTimer.stop, if_pos h0]
          rw [if_pos (by omega)]
        constructor
        · rw [heq]; omega
        · intro _
          exact ⟨h1, n, rfl⟩
      · have heq : (timerStep t (TimerEvent.stop n)).total_time = t.total_time := by
          simp only [timerStep, AtomicTimer.stop, if_pos h0]
          rw [if_neg (by omega)]
        constructor
        · rw [heq]
        · intro hne
          exact absurd heq hne
    · have heq : timerStep t (TimerEvent.stop n) = t := by
        simp only [timerStep, AtomicTimer.stop, if_neg h0]
      constructor
      · rw [heq]
      · intro hne
        rw [heq] at hne
        exact absurd rfl hne

/-- Splitting a monotone timestamp sequence at an event: the preceding
part is monotone and ends no later than the event. -/
theorem timesMonotone_split (pre : List TimerEvent) : ∀ (lo : Int) (e : TimerEvent)
    (suf : List TimerEvent), timesMonotone lo (pre ++ e :: suf) = true →
    timesMonotone lo pre = true ∧ lastTimeFrom lo pre ≤ e.time := by
  induction pre with
  | nil =>
    intro lo e suf h
    simp only [List.nil_append, timesMonotone, Bool.and_eq_true, decide_eq_true_eq] at h
    exact ⟨rfl, h.1⟩
  | cons p ps ih =>
    intro lo e suf h
    simp only [List.cons_append, timesMonotone, Bool.and_eq_true, decide_eq_true_eq] at h ⊢
    obtain ⟨h1, h2⟩ := h
    have hps := ih p.time e suf h2
    exact ⟨⟨by simpa using h1, hps.1⟩, hps.2⟩

/-! ## Claim theorems -/

/-- C1: the claim states the queue is bounded by 5 with the OLDEST
message evicted on overflow.  The code (`push_back` then `pop_back`,
lines 179-182) instead discards the message it just pushed: posting a
sixth message leaves the original five untouched, the new message is
absent, and the queue differs from the FIFO result the claim
requires. -/
theorem messageBox_evicts_newest_at_capacity :
    pushMessage ["m1", "m2", "m3", "m4", "m5"] "m6" = ["m1", "m2", "m3", "m4", "m5"]
    ∧ ¬ "m6" ∈ pushMessage ["m1", "m2", "m3", "m4", "m5"] "m6"
    ∧ pushMessage ["m1", "m2", "m3", "m4", "m5"] "m6" ≠ ["m2", "m3", "m4", "m5", "m6"] := by
  decide

/-- C2: one reconciliation pass keeps exactly the entries that are
indexed and on the best chain, accumulates each kept entry's subsidy
into `immature` when `tipHeight - height` is below the maturity
threshold and into `mature` otherwise, and drops the rest; on the
spec's `[A, B, C]` instance (A mature, B immature, C unindexed) the
pass returns `([A, B], subsidy B, subsidy A)` and the derived discarded
count grows by one. -/
theorem reconcile_pass_spec {α : Type} (index : α → Option Int) (contains : α → Bool)
    (subsidy : Int → Int) (maturity tipHeight : Int) (l : List α) :
    ((reconcileTracked index contains subsidy maturity tipHeight l).1
        = l.filter (specKept index contains)
      ∧ (reconcileTracked index contains subsidy maturity tipHeight l).2.1
        = ((l.filter (fun h => specKept index contains h
              && decide (tipHeight - specHeight index h < maturity))).map
            (fun h => subsidy (specHeight index h))).sum
      ∧ (reconcileTracked index contains subsidy maturity tipHeight l).2.2
        = ((l.filter (fun h => specKept index contains h
              && decide (maturity ≤ tipHeight - specHeight index h))).map
            (fun h => subsidy (specHeight index h))).sum)
    ∧ (reconcileTracked (fun n => if n = 0 then some 10 else if n = 1 then some 95 else none)
          (fun n => decide (n < 2)) (fun ht => if ht = 10 then 50 else 25) 20 100 [0, 1, 2]
        = ([0, 1], 25, 50)
      ∧ printMetricsOrphaned 3 (reconcileTracked
            (fun n => if n = 0 then some 10 else if n = 1 then some 95 else none)
            (fun n => decide (n < 2)) (fun ht => if ht = 10 then 50 else 25) 20 100
            [0, 1, 2]).1
        = printMetricsOrphaned 3 [0, 1, 2] + 1) := by
  refine ⟨⟨?_, ?_, ?_⟩, by decide⟩
  · exact reconcileTracked_fst index contains subsidy maturity tipHeight l
  · exact reconcileTracked_immature index contains subsidy maturity tipHeight l
  · exact reconcileTracked_mature index contains subsidy maturity tipHeight l

/-- C3: `stop()` on a running timer decrements the count; on the 1→0
transition it adds `now - start_time` to the accumulated duration and
the spec-level interval start becomes unset; with more callers active
it changes nothing else; and `stop()` on an idle timer is a no-op that
leaves every field unchanged. -/
theorem stop_spec (t : AtomicTimer) (now : Int) :
    (0 < t.threads →
      (t.stop now).threads = t.threads - 1
      ∧ (t.threads = 1 →
          (t.stop now).total_time = t.total_time + (now - t.start_time)
          ∧ specCurrentIntervalStart (t.stop now) = none)
      ∧ (1 < t.threads →
          (t.stop now).total_time = t.total_time
          ∧ (t.stop now).start_time = t.start_time))
    ∧ (t.threads = 0 → t.stop now = t) := by
  obtain ⟨k, s, tt⟩ := t
  cases k with
  | zero => simp [AtomicTimer.stop]
  | succ n =>
    cases n with
    | zero => simp [AtomicTimer.stop, specCurrentIntervalStart]
    | succ m => simp [AtomicTimer.stop, specCurrentIntervalStart]

/-- Witness for C3: a 1→0 stop at time 25 on a timer started at 10
books 15 units, and a stop on an idle timer changes nothing. -/
theorem stop_spec_witness :
    ((AtomicTimer.stop ⟨1, 10, 100⟩ 25).total_time = 100 + (25 - 10)
      ∧ specCurrentIntervalStart (AtomicTimer.stop ⟨1, 10, 100⟩ 25) = none)
    ∧ AtomicTimer.stop ⟨0, 3, 7⟩ 25 = ⟨0, 3, 7⟩ :=
  ⟨((stop_spec ⟨1, 10, 100⟩ 25).1 (by decide)).2.1 rfl,
    (stop_spec ⟨0, 3, 7⟩ 25).2 rfl⟩

/-- C4: `rate(counter)` divides the counter by the accumulated duration
plus — while the timer is running — the open interval `now -
start_time`; it returns 0 exactly when that duration is not positive,
and in particular a running timer with a positive open duration and a
positive counter yields a positive rate, not 0. -/
theorem rate_spec (t : AtomicTimer) (now : Int) (count : Nat) :
    (0 < t.total_time + (if t.running = true then now - t.start_time else 0) →
      t.rate now count = (count : ℚ) /
        ((t.total_time + (if t.running = true then now - t.start_time else 0) : Int) : ℚ))
    ∧ (t.total_time + (if t.running = true then now - t.start_time else 0) ≤ 0 →
      t.rate now count = 0)
    ∧ (t.running = true → 0 < t.total_time + (now - t.start_time) → 0 < count →
      0 < t.rate now count) := by
  have hrw : (if t.running = true then now - t.start_time else 0)
      = (if 0 < t.threads then now - t.start_time else 0) := by
    simp [AtomicTimer.running]
  simp only [hrw]
  refine ⟨?_, ?_, ?_⟩
  · intro hd
    simp only [AtomicTimer.rate]
    rw [if_pos hd]
  · intro hd
    simp only [AtomicTimer.rate]
    rw [if_neg (by omega)]
  · intro hr hd hc
    have ht : 0 < t.threads := by
      simpa [AtomicTimer.running] using hr
    simp only [AtomicTimer.rate, if_pos ht]
    rw [if_pos hd]
    apply div_pos
    · exact_mod_cast hc
    · exact_mod_cast hd

/-- Witness for C4: a timer running since time 0 queried at time 5 with
counter 3 yields 3/5; an idle zeroed timer yields 0. -/
theorem rate_spec_witness :
    AtomicTimer.rate ⟨1, 0, 0⟩ 5 3 = (3 : ℚ) / 5
    ∧ AtomicTimer.rate ⟨0, 0, 0⟩ 5 3 = 0
    ∧ 0 < AtomicTimer.rate ⟨1, 0, 0⟩ 5 3 := by
  refine ⟨?_, ?_, ?_⟩
  · have h := (rate_spec ⟨1, 0, 0⟩ 5 3).1 (by decide)
    simpa [AtomicTimer.running] using h
  · exact (rate_spec ⟨0, 0, 0⟩ 5 3).2.1 (by decide)
  · exact (rate_spec ⟨1, 0, 0⟩ 5 3).2.2 (by decide) (by decide) (by decide)

/-- C5: `EstimateNetHeightInner` computes exactly the claimed
composition — median height from the window, checkpoint spacing chosen
by whether the median height is past the checkpoint, averaged with the
target spacing, extrapolated from the tip's median time, rounded with
`((h + 5) / 10) * 10` — and its result is always a multiple of 10. -/
theorem estimateNetHeight_spec (w h tmt hcp tcp g ts now : Int) :
    EstimateNetHeightInner w h tmt hcp tcp g ts now =
      ((ratTrunc
          (((if w < h then h - (1 + (w - 1).tdiv 2) else h.tdiv 2 : Int) : ℚ) +
            ((now - tmt : Int) : ℚ) /
              (((ts : ℚ) +
                (if hcp < (if w < h then h - (1 + (w - 1).tdiv 2) else h.tdiv 2 : Int) then
                  ((tmt - tcp : Int) : ℚ) /
                    (((if w < h then h - (1 + (w - 1).tdiv 2) else h.tdiv 2 : Int)
                      - hcp : Int) : ℚ)
                else ((tcp - g : Int) : ℚ) / ((hcp : Int) : ℚ))) / 2)) + 5).tdiv 10) * 10
    ∧ (10 : Int) ∣ EstimateNetHeightInner w h tmt hcp tcp g ts now := by
  constructor
  · rfl
  · simp only [EstimateNetHeightInner]
    exact dvd_mul_left 10 _

/-- C7: after any run, the lifetime `minedBlocks` counter equals the
number of blocks ever tracked, the reported orphan count is that
counter minus the reconciled list's size, and an entry survives the
pass exactly when it is still indexed and on the best chain (so the
list is pruned only on disqualification, never on confirmation). -/
theorem orphaned_count_spec {α : Type} (evs : List (MinerEvent α)) (index : α → Option Int)
    (contains : α → Bool) (subsidy : Int → Int) (maturity tipHeight : Int) :
    (minerRun evs).minedBlocks = ((evs.filter isTrackEvent).length : Int)
    ∧ printMetricsOrphaned (minerRun evs).minedBlocks
        (reconcileTracked index contains subsidy maturity tipHeight
          (minerRun evs).trackedBlocks).1
      = (minerRun evs).minedBlocks
        - ((reconcileTracked index contains subsidy maturity tipHeight
            (minerRun evs).trackedBlocks).1.length : Int)
    ∧ (∀ h, h ∈ (reconcileTracked index contains subsidy maturity tipHeight
            (minerRun evs).trackedBlocks).1
        ↔ h ∈ (minerRun evs).trackedBlocks
          ∧ (index h).isSome = true ∧ contains h = true) := by
  refine ⟨?_, rfl, ?_⟩
  · have hm := minerRun_mined evs (initMinerState α)
    simpa [minerRun, initMinerState] using hm
  · intro h
    rw [reconcileTracked_fst]
    simp [List.mem_filter, specKept, Bool.and_eq_true]

/-- C8: over any start/stop call sequence with non-decreasing observed
times, `running()` is true iff some start is unmatched (the clamped
balance is positive), and the accumulated duration never decreases at
any step, changing only when the step is a `stop` taken with exactly
one active caller. -/
theorem timer_interleaving_spec (evs : List TimerEvent)
    (hmono : timesMonotone 0 evs = true) :
    ((timerRun evs).running = true ↔ 0 < specActive evs)
    ∧ (∀ pre e suf, evs = pre ++ e :: suf →
        (timerRun pre).total_time ≤ (timerStep (timerRun pre) e).total_time
        ∧ ((timerStep (timerRun pre) e).total_time ≠ (timerRun pre).total_time →
            (timerRun pre).threads = 1 ∧ ∃ n, e = TimerEvent.stop n)) := by
  constructor
  · have hth : (timerRun evs).threads = specActive evs := by
      have hr := timerRun_threads evs initTimer
      simpa [timerRun, specActive, initTimer] using hr
    simp [AtomicTimer.running, hth]
  · intro pre e suf heq
    subst heq
    obtain ⟨hm, hl⟩ := timesMonotone_split pre 0 e suf hmono
    have hinv : 0 < (timerRun pre).threads → (timerRun pre).start_time ≤ e.time := by
      intro hp
      exact le_trans (timerRun_start_le pre 0 initTimer hm (by simp [initTimer]) hp) hl
    exact timerStep_total (timerRun pre) e hinv

/-- Witness for C8: on the sequence start(1), stop(3) the timer ends
not running with a zero balance, and the stop step does not decrease
the accumulated duration. -/
theorem timer_interleaving_spec_witness :
    ((timerRun [TimerEvent.start 1, TimerEvent.stop 3]).running = true
      ↔ 0 < specActive [TimerEvent.start 1, TimerEvent.stop 3])
    ∧ (timerRun [TimerEvent.start 1]).total_time
        ≤ (timerStep (timerRun [TimerEvent.start 1]) (TimerEvent.stop 3)).total_time := by
  constructor
  · exact (timer_interleaving_spec [TimerEvent.start 1, TimerEvent.stop 3] (by decide)).1
  · exact ((timer_interleaving_spec [TimerEvent.start 1, TimerEvent.stop 3] (by decide)).2
      [TimerEvent.start 1] (TimerEvent.stop 3) [] rfl).1

/-- C9: under the documented precondition (checkpoint height at least 1
and a nonzero computed average spacing) the division-checked variant of
the estimator never takes a divide-by-zero branch and agrees with the
unchecked function, which performs no runtime guard of its own. -/
theorem estimateNetHeight_no_division_guard (w h tmt hcp tcp g ts now : Int)
    (h1 : 1 ≤ hcp)
    (h2 : averageSpacingOf ts (checkpointSpacingOf (medianHeightOf w h) hcp tmt tcp g) ≠ 0) :
    EstimateNetHeightInnerChecked w h tmt hcp tcp g ts now =
      some (EstimateNetHeightInner w h tmt hcp tcp g ts now) := by
  have hdiv : (if hcp < medianHeightOf w h then medianHeightOf w h - hcp else hcp) ≠ 0 := by
    by_cases hl : hcp < medianHeightOf w h
    · rw [if_pos hl]; omega
    · rw [if_neg hl]; omega
  simp only [EstimateNetHeightInnerChecked, EstimateNetHeightInner]
  rw [if_neg hdiv, if_neg h2]

/-- Witness for C9: the spec's own example figures (window 11, local
height 100, checkpoint at height 50, observed spacing 200, target 100,
so average spacing 150). -/
theorem estimateNetHeight_no_division_guard_witness :
    EstimateNetHeightInnerChecked 11 100 10000 50 1200 0 100 10300 =
      some (EstimateNetHeightInner 11 100 10000 50 1200 0 100 10300) :=
  estimateNetHeight_no_division_guard 11 100 10000 50 1200 0 100 10300 (by decide)
    (by
      have hm : medianHeightOf 11 100 = 94 := by decide
      rw [hm]
      norm_num [averageSpacingOf, checkpointSpacingOf])

/-- C10: in every state reachable by tracking mined blocks and running
render passes, the lifetime mined-block counter is at least the tracked
list's size, so the derived orphan count is never negative. -/
theorem mined_ge_tracked_invariant {α : Type} (evs : List (MinerEvent α)) :
    ((minerRun evs).trackedBlocks.length : Int) ≤ (minerRun evs).minedBlocks := by
  exact minerRun_inv evs (initMinerState α) (by simp [initMinerState])

end Metrics
